import Mathlib

/-!
Shallow embedding of the vocdoni-node (go-dvote) core: the crypto/signature
package, the vochain KeyKeeper and the vochain Scrutinizer, together with
proofs of the specification claims about them.

Bytes are modelled as `Nat` (with the invariant `< 256` carried as a
hypothesis where it matters), byte slices as `List Nat`, Go strings as
`List Char`, and fallible Go functions as `Except String`.  External
dependencies that are not part of this repository (keccak256, Poseidon,
ECDSA sign/recover, the amino/json codecs, NaCl box decryption) are taken
as explicit function parameters, so every theorem quantifies over them.
-/

namespace Vocdoni

/-! ## Byte and hex utilities (Go `encoding/hex` and `fmt %x`) -/

/-- Value of one hexadecimal digit character, as `hex.DecodeString` accepts:
digits, lowercase and uppercase letters. -/
def hexDigitVal (c : Char) : Option Nat :=
  if '0' ≤ c ∧ c ≤ '9' then some (c.toNat - '0'.toNat)
  else if 'a' ≤ c ∧ c ≤ 'f' then some (c.toNat - 'a'.toNat + 10)
  else if 'A' ≤ c ∧ c ≤ 'F' then some (c.toNat - 'A'.toNat + 10)
  else none

/-- Go `hex.DecodeString`: decodes pairs of hex digits into bytes; fails on a
non-hex character or an odd-length input. -/
def hexDecode : List Char → Option (List Nat)
  | [] => some []
  | [_] => none
  | c1 :: c2 :: rest =>
    match hexDigitVal c1, hexDigitVal c2, hexDecode rest with
    | some h, some l, some bs => some ((h * 16 + l) :: bs)
    | _, _, _ => none

/-- Lowercase hex digit character for a value `< 16`, as `fmt %x` prints. -/
def hexDigitChar (n : Nat) : Char :=
  if n < 10 then Char.ofNat (48 + n) else Char.ofNat (87 + n)

/-- One byte as two lowercase hex digits. -/
def byteToHex (b : Nat) : List Char :=
  [hexDigitChar (b / 16), hexDigitChar (b % 16)]

/-- Go `fmt.Sprintf("%x", bytes)`: lowercase hex of a byte slice. -/
def hexEncode : List Nat → List Char
  | [] => []
  | b :: rest => byteToHex b ++ hexEncode rest

theorem hexDigitVal_hexDigitChar (n : Nat) (h : n < 16) :
    hexDigitVal (hexDigitChar n) = some n := by
  interval_cases n <;> decide

theorem hexDecode_hexEncode (bs : List Nat) (h : ∀ b ∈ bs, b < 256) :
    hexDecode (hexEncode bs) = some bs := by
  induction bs with
  | nil => rfl
  | cons b rest ih =>
    have hb : b < 256 := h b (by simp)
    have hhi : b / 16 < 16 := by omega
    have hlo : b % 16 < 16 := by omega
    have ih2 := ih (fun x hx => h x (by simp [hx]))
    simp only [hexEncode, byteToHex, List.cons_append, List.nil_append]
    simp [hexDecode, hexDigitVal_hexDigitChar _ hhi,
      hexDigitVal_hexDigitChar _ hlo, ih2]
    omega

theorem hexEncode_length (bs : List Nat) :
    (hexEncode bs).length = 2 * bs.length := by
  induction bs with
  | nil => rfl
  | cons b rest ih =>
    simp only [hexEncode, byteToHex, List.length_append, List.length_cons,
      List.length_nil, ih]
    omega

/-! ## KeyKeeper `processKeys` encode/decode (vochain/keykeeper) -/

/-- `commitmentKeySize = nacl.KeyLength = 32`. -/
def commitmentKeySize : Nat := 32

/-- `encryptionKeySize = nacl.KeyLength = 32`. -/
def encryptionKeySize : Nat := 32

/-- The key-keeper's in-memory key material for one process.  The four key
fields are Go fixed-size 32-byte arrays `[32]byte`, modelled as byte lists
whose length-32 well-formedness is carried by `processKeys.WF`; `index` is a
Go `int8`, modelled as an `Int` in `[-128, 127]`. -/
structure processKeys where
  pubKey : List Nat
  privKey : List Nat
  revealKey : List Nat
  commitmentKey : List Nat
  index : Int
  deriving Repr, DecidableEq

/-- The representation invariant Go enforces through its types: each key field
is a `[32]byte` and `index` is an `int8`. -/
def processKeys.WF (pk : processKeys) : Prop :=
  pk.pubKey.length = 32 ∧ (∀ b ∈ pk.pubKey, b < 256) ∧
  pk.privKey.length = 32 ∧ (∀ b ∈ pk.privKey, b < 256) ∧
  pk.revealKey.length = 32 ∧ (∀ b ∈ pk.revealKey, b < 256) ∧
  pk.commitmentKey.length = 32 ∧ (∀ b ∈ pk.commitmentKey, b < 256) ∧
  -128 ≤ pk.index ∧ pk.index ≤ 127

instance (pk : processKeys) : Decidable pk.WF := by
  unfold processKeys.WF; infer_instance

/-- Go `byte(i)` on an `int8` value: two's-complement low byte. -/
def byteOfInt8 (i : Int) : Nat := (i % 256).toNat

/-- Go `int8(b)` on a byte value: reinterpret as two's complement. -/
def int8OfByte (b : Nat) : Int :=
  if b ≥ 128 then (b : Int) - 256 else (b : Int)

theorem int8OfByte_byteOfInt8 (i : Int) (h1 : -128 ≤ i) (h2 : i ≤ 127) :
    int8OfByte (byteOfInt8 i) = i := by
  unfold byteOfInt8 int8OfByte
  split <;> omega

/-- Go `copy(dst[off:], src)`: overwrite `dst` starting at `off` with as much
of `src` as fits. -/
def copyInto (dst : List Nat) (off : Nat) (src : List Nat) : List Nat :=
  dst.take off ++ src.take (dst.length - off) ++ dst.drop (off + src.length)

theorem copyInto_length (dst : List Nat) (off : Nat) (src : List Nat)
    (h : off + src.length ≤ dst.length) :
    (copyInto dst off src).length = dst.length := by
  unfold copyInto
  simp [List.length_take, List.length_drop]
  omega

/-- Go `data[i] = b` (panics are unreachable at the use sites below). -/
def setByte (data : List Nat) (i : Nat) (b : Nat) : List Nat :=
  data.set i b

/-- `processKeys.Encode`: pack into 129 bytes as
`pubKey(32) ‖ privKey(32) ‖ revealKey(32) ‖ commitmentKey(32) ‖ index(1)`. -/
def processKeys.Encode (pk : processKeys) : List Nat :=
  let data := List.replicate (commitmentKeySize * 2 + encryptionKeySize * 2 + 1) 0
  let data := copyInto data 0 pk.pubKey
  let data := copyInto data encryptionKeySize pk.privKey
  let data := copyInto data (encryptionKeySize * 2) pk.revealKey
  let data := copyInto data (encryptionKeySize * 2 + commitmentKeySize) pk.commitmentKey
  setByte data 128 (byteOfInt8 pk.index)

/-- `processKeys.Decode`: errors exactly when the input is shorter than 129
bytes, otherwise reads the four 32-byte keys and the index byte. -/
def processKeys.Decode (data : List Nat) : Except String processKeys :=
  if data.length < commitmentKeySize * 2 + encryptionKeySize * 2 + 1 then
    .error "cannot decode, data too small"
  else
    .ok { pubKey := data.take 32
          privKey := (data.drop encryptionKeySize).take 32
          revealKey := (data.drop (encryptionKeySize * 2)).take 32
          commitmentKey := (data.drop (encryptionKeySize * 2 + commitmentKeySize)).take 32
          index := int8OfByte (data.getD (encryptionKeySize * 2 + commitmentKeySize * 2) 0) }

/-! ### List bookkeeping lemmas for the 129-byte layout -/

theorem take_ge {α : Type} (l : List α) (n : Nat) (h : l.length ≤ n) :
    l.take n = l := by
  induction l generalizing n with
  | nil => simp
  | cons a t ih =>
    cases n with
    | zero => simp at h
    | succ m =>
      simp only [List.take_succ_cons]
      rw [ih m (by simp at h; omega)]

theorem take_append_len {α : Type} (l1 l2 : List α) (n : Nat)
    (h : n = l1.length) : (l1 ++ l2).take n = l1 := by
  subst h
  induction l1 with
  | nil => simp
  | cons a t ih => simp [ih]

theorem drop_append_len {α : Type} (l1 l2 : List α) (n : Nat)
    (h : n = l1.length) : (l1 ++ l2).drop n = l2 := by
  subst h
  induction l1 with
  | nil => simp
  | cons a t _ => simp

theorem set_append_len {α : Type} (l1 l2 : List α) (n : Nat) (x : α)
    (h : n = l1.length) : (l1 ++ l2).set n x = l1 ++ l2.set 0 x := by
  subst h
  induction l1 with
  | nil => simp
  | cons a t _ => simp

theorem getElem?_append_len {α : Type} (l1 l2 : List α) (n : Nat)
    (h : n = l1.length) : (l1 ++ l2)[n]? = l2[0]? := by
  subst h
  induction l1 with
  | nil => simp
  | cons a t ih => simpa using ih

theorem copyInto_eq (pre mid post src : List Nat) (off : Nat)
    (hoff : off = pre.length) (hmid : mid.length = src.length) :
    copyInto (pre ++ (mid ++ post)) off src = pre ++ (src ++ post) := by
  unfold copyInto
  have h1 : (pre ++ (mid ++ post)).take off = pre :=
    take_append_len pre (mid ++ post) off hoff
  have h2 : src.take ((pre ++ (mid ++ post)).length - off) = src := by
    apply take_ge
    simp only [List.length_append]
    omega
  have h3 : (pre ++ (mid ++ post)).drop (off + src.length) = post := by
    rw [← List.append_assoc]
    apply drop_append_len
    simp [List.length_append, hoff, hmid]
  rw [h1, h2, h3, List.append_assoc]

theorem replicate_split (n m k : Nat) (h : n = m + k) :
    List.replicate n (0:Nat) = List.replicate m 0 ++ List.replicate k 0 := by
  subst h; rw [List.replicate_add]

/-- The 129-byte layout of `Encode`:
`pubKey ‖ privKey ‖ revealKey ‖ commitmentKey ‖ index`. -/
theorem processKeys.encode_eq (pk : processKeys) (h : pk.WF) :
    pk.Encode = pk.pubKey ++ (pk.privKey ++ (pk.revealKey ++
      (pk.commitmentKey ++ [byteOfInt8 pk.index]))) := by
  obtain ⟨h1, _, h2, _, h3, _, h4, _, _, _⟩ := h
  unfold processKeys.Encode setByte
  simp only [commitmentKeySize, encryptionKeySize]
  norm_num
  rw [replicate_split 129 32 97 (by norm_num)]
  have eA := copyInto_eq [] (List.replicate 32 0) (List.replicate 97 0)
    pk.pubKey 0 (by simp) (by simp [h1])
  simp only [List.nil_append] at eA
  rw [eA, replicate_split 97 32 65 (by norm_num)]
  have eB := copyInto_eq pk.pubKey (List.replicate 32 0) (List.replicate 65 0)
    pk.privKey 32 h1.symm (by simp [h2])
  rw [eB, replicate_split 65 32 33 (by norm_num)]
  rw [← List.append_assoc pk.pubKey pk.privKey]
  have eC := copyInto_eq (pk.pubKey ++ pk.privKey) (List.replicate 32 0)
    (List.replicate 33 0) pk.revealKey 64 (by simp [h1, h2]) (by simp [h3])
  rw [eC, replicate_split 33 32 1 (by norm_num), List.replicate_one]
  rw [← List.append_assoc (pk.pubKey ++ pk.privKey) pk.revealKey]
  have eD := copyInto_eq (pk.pubKey ++ pk.privKey ++ pk.revealKey)
    (List.replicate 32 0) [0] pk.commitmentKey 96
    (by simp [h1, h2, h3]) (by simp [h4])
  rw [eD]
  rw [← List.append_assoc (pk.pubKey ++ pk.privKey ++ pk.revealKey) pk.commitmentKey]
  rw [set_append_len _ _ 128 _ (by simp [h1, h2, h3, h4])]
  simp [List.append_assoc]

theorem processKeys.encode_length (pk : processKeys) (h : pk.WF) :
    pk.Encode.length = 129 := by
  rw [pk.encode_eq h]
  obtain ⟨h1, _, h2, _, h3, _, h4, _, _, _⟩ := h
  simp [h1, h2, h3, h4]

/-- Lossless round trip through the packed 129-byte representation. -/
theorem processKeys.decode_encode (pk : processKeys) (h : pk.WF) :
    processKeys.Decode pk.Encode = .ok pk := by
  have hWF := h
  obtain ⟨h1, _, h2, _, h3, _, h4, _, hi1, hi2⟩ := h
  have hlen := pk.encode_length hWF
  rw [pk.encode_eq hWF]
  rw [pk.encode_eq hWF] at hlen
  unfold processKeys.Decode
  simp only [commitmentKeySize, encryptionKeySize]
  norm_num
  rw [if_neg (by omega)]
  have t1 : (pk.pubKey ++ (pk.privKey ++ (pk.revealKey ++
      (pk.commitmentKey ++ [byteOfInt8 pk.index])))).take 32 = pk.pubKey :=
    take_append_len _ _ _ h1.symm
  have d1 : (pk.pubKey ++ (pk.privKey ++ (pk.revealKey ++
      (pk.commitmentKey ++ [byteOfInt8 pk.index])))).drop 32
      = pk.privKey ++ (pk.revealKey ++ (pk.commitmentKey ++ [byteOfInt8 pk.index])) :=
    drop_append_len _ _ _ h1.symm
  have t2 : (pk.privKey ++ (pk.revealKey ++ (pk.commitmentKey
      ++ [byteOfInt8 pk.index]))).take 32 = pk.privKey :=
    take_append_len _ _ _ h2.symm
  have d2 : (pk.pubKey ++ (pk.privKey ++ (pk.revealKey ++
      (pk.commitmentKey ++ [byteOfInt8 pk.index])))).drop 64
      = pk.revealKey ++ (pk.commitmentKey ++ [byteOfInt8 pk.index]) := by
    rw [← List.append_assoc]
    exact drop_append_len _ _ _ (by simp [h1, h2])
  have t3 : (pk.revealKey ++ (pk.commitmentKey ++ [byteOfInt8 pk.index])).take 32
      = pk.revealKey := take_append_len _ _ _ h3.symm
  have d3 : (pk.pubKey ++ (pk.privKey ++ (pk.revealKey ++
      (pk.commitmentKey ++ [byteOfInt8 pk.index])))).drop 96
      = pk.commitmentKey ++ [byteOfInt8 pk.index] := by
    rw [← List.append_assoc, ← List.append_assoc]
    exact drop_append_len _ _ _ (by simp [h1, h2, h3])
  have t4 : (pk.commitmentKey ++ [byteOfInt8 pk.index]).take 32
      = pk.commitmentKey := take_append_len _ _ _ h4.symm
  have g1 : (pk.pubKey ++ (pk.privKey ++ (pk.revealKey ++
      (pk.commitmentKey ++ [byteOfInt8 pk.index]))))[128]?.getD 0
      = byteOfInt8 pk.index := by
    rw [← List.append_assoc, ← List.append_assoc, ← List.append_assoc]
    rw [getElem?_append_len _ _ _ (by simp [h1, h2, h3, h4])]
    rfl
  rw [t1, d1, t2, d2, t3, d3, t4, g1, int8OfByte_byteOfInt8 _ hi1 hi2]

/-- `Decode` rejects exactly the inputs shorter than 129 bytes. -/
theorem processKeys.decode_error_iff (data : List Nat) :
    (∃ e, processKeys.Decode data = .error e) ↔ data.length < 129 := by
  unfold processKeys.Decode
  simp only [commitmentKeySize, encryptionKeySize]
  norm_num
  split
  · simp; omega
  · simp; omega

/-! ## crypto/signature -/

/-- Bytes of `SigningPrefix = "\u0019Ethereum Signed Message:\n"`. -/
def signingPrefixBytes : List Nat :=
  25 :: ("Ethereum Signed Message:\n".data.map Char.toNat)

/-- Bytes of the decimal digits of `n`, as Go `%d` prints. -/
def decimalBytes (n : Nat) : List Nat :=
  (toString n).data.map Char.toNat

/-- The exact byte string `Hash` feeds to keccak256:
`SigningPrefix ‖ decimal(len(data)) ‖ data`. -/
def signPreimage (data : List Nat) : List Nat :=
  signingPrefixBytes ++ decimalBytes data.length ++ data

/-- `Hash`: keccak256 of the message with the Ethereum prefix added. -/
def Hash (keccak : List Nat → List Nat) (data : List Nat) : List Nat :=
  keccak (signPreimage data)

/-- `HashRaw`: keccak256 of the message with no prefix. -/
def HashRaw (keccak : List Nat → List Nat) (data : List Nat) : List Nat :=
  keccak data

/-- `SignKeys.Sign`: refuse if no private key is loaded, else ECDSA-sign the
prefixed keccak hash of the message and return the signature hex encoded.
`ecdsaSign` stands for `crypto.Sign` with the signer's private key. -/
def skSign (ecdsaSign : List Nat → Except String (List Nat))
    (keccak : List Nat → List Nat) (hasKey : Bool) (message : List Nat) :
    Except String (List Char) :=
  if !hasKey then .error "no private key available"
  else
    match ecdsaSign (Hash keccak message) with
    | .error e => .error e
    | .ok sig => .ok (hexEncode sig)

/-- `util.TrimHex` (net/pss.go): `strings.TrimPrefix(hexStr, "0x")` —
strips one leading "0x" marker when present. -/
def TrimHex (s : List Char) : List Char :=
  if s.length ≥ 2 ∧ s.getD 0 ' ' = '0' ∧ s.getD 1 ' ' = 'x'
  then s.drop 2 else s

/-- `SignatureLength = 130`: hex length of a 65-byte ECDSA signature. -/
def SignatureLength : Nat := 130

/-- `PubKeyFromSignature`: length-check the hex signature, decode it,
normalise the recovery byte `sig[64]` (subtracting 27 in byte arithmetic when
it is above 1, then insisting the result is 0 or 1), then recover the public
key from the prefixed message hash.  `sigToPub` stands for
`crypto.SigToPub` composed with `crypto.FromECDSAPub`. -/
def PubKeyFromSignature
    (sigToPub : List Nat → List Nat → Except String (List Nat))
    (keccak : List Nat → List Nat) (msg : List Nat) (sigHex : List Char) :
    Except String (List Char) :=
  if (TrimHex sigHex).length < SignatureLength ∨
      (TrimHex sigHex).length > SignatureLength + 12 then
    .error "signature length not correct"
  else
    match hexDecode (TrimHex sigHex) with
    | none => .error "encoding hex: invalid byte"
    | some sig =>
      let sig2 := if sig.getD 64 0 > 1
        then sig.set 64 ((sig.getD 64 0 + 229) % 256) else sig
      if sig2.getD 64 0 > 1 then .error "bad recover ID byte"
      else (sigToPub (Hash keccak msg) sig2).map hexEncode

/-- `SignKeys.Verify`: recover the public key from the signature, decode the
signature and public key hex, and check the first 64 signature bytes against
the prefixed message hash.  `ecVerify` stands for `crypto.VerifySignature`. -/
def skVerify (sigToPub : List Nat → List Nat → Except String (List Nat))
    (keccak : List Nat → List Nat)
    (ecVerify : List Nat → List Nat → List Nat → Bool)
    (message : List Nat) (signHex : List Char) : Except String Bool :=
  match PubKeyFromSignature sigToPub keccak message (TrimHex signHex) with
  | .error e => .error e
  | .ok pubHex =>
    match hexDecode signHex with
    | none => .error "encoding hex: invalid byte"
    | some signature =>
      match hexDecode pubHex with
      | none => .error "encoding hex: invalid byte"
      | some pub => .ok (ecVerify pub (Hash keccak message) (signature.take 64))

/-- Standalone `Verify(message, signHex, pubHex)`: builds a fresh `SignKeys`
value and calls its `Verify` method; the `pubHex` argument is dropped. -/
def Verify (sigToPub : List Nat → List Nat → Except String (List Nat))
    (keccak : List Nat → List Nat)
    (ecVerify : List Nat → List Nat → List Nat → Bool)
    (message : List Nat) (signHex pubHex : List Char) : Except String Bool :=
  skVerify sigToPub keccak ecVerify message signHex

/-! ## KeyKeeper admin-tx submission (vochain/keykeeper `signAndSendTx`) -/

/-- Result of a mempool broadcast (`SendTX`). -/
structure TxResult where
  code : Nat
  data : List Nat

/-- `types.AdminTx` as the key keeper fills it. -/
structure AdminTxM where
  txType : String
  keyIndex : Int
  nonce : String
  processID : String
  encryptionPublicKey : String
  encryptionPrivateKey : String
  commitmentKey : String
  revealKey : String
  signature : List Char
  deriving Repr, DecidableEq

/-- `KeyKeeper.signAndSendTx`: marshal the tx, sign the bytes with the
keeper's signer (`SignKeys.Sign`), set the signature field, re-marshal and
submit to the local mempool; non-zero result codes are errors.  `marshal`
stands for `json.Marshal`, `send` for `vochain.SendTX`.  The returned value
is the tx with its signature set (Go mutates it through the pointer). -/
def signAndSendTx (marshal : AdminTxM → Except String (List Nat))
    (ecdsaSign : List Nat → Except String (List Nat))
    (keccak : List Nat → List Nat)
    (send : List Nat → Except String TxResult)
    (hasKey : Bool) (tx : AdminTxM) : Except String AdminTxM :=
  match marshal tx with
  | .error e => .error e
  | .ok txBytes =>
    match skSign ecdsaSign keccak hasKey txBytes with
    | .error e => .error e
    | .ok sig =>
      let tx2 := { tx with signature := sig }
      match marshal tx2 with
      | .error e => .error e
      | .ok txBytes2 =>
        match send txBytes2 with
        | .error e => .error e
        | .ok res =>
          if res.code ≠ 0 then .error "error sending transaction" else .ok tx2

/-! ## Claim theorems -/

/-- Claim C8: `Encode` produces exactly 129 bytes laid out as
`pubKey(32) ‖ privKey(32) ‖ revealKey(32) ‖ commitmentKey(32) ‖ index(1)`,
`Decode (Encode pk)` reconstructs `pk` exactly, and `Decode` errors
precisely when its input is shorter than 129 bytes. -/
theorem claim_C8_processKeys_encode_decode (pk : processKeys) (h : pk.WF) :
    pk.Encode.length = 129 ∧
    pk.Encode = pk.pubKey ++ (pk.privKey ++ (pk.revealKey ++
      (pk.commitmentKey ++ [byteOfInt8 pk.index]))) ∧
    processKeys.Decode pk.Encode = .ok pk ∧
    (∀ data : List Nat,
      (∃ e, processKeys.Decode data = .error e) ↔ data.length < 129) :=
  ⟨pk.encode_length h, pk.encode_eq h, pk.decode_encode h,
   fun data => processKeys.decode_error_iff data⟩

/-- A concrete well-formed key record for witnesses. -/
def samplePK : processKeys :=
  { pubKey := List.replicate 32 1
    privKey := List.replicate 32 2
    revealKey := List.replicate 32 3
    commitmentKey := List.replicate 32 4
    index := -5 }

theorem claim_C8_witness :
    samplePK.WF ∧ processKeys.Decode samplePK.Encode = .ok samplePK :=
  ⟨by decide, (claim_C8_processKeys_encode_decode samplePK (by decide)).2.2.1⟩

/-- Claim C9: the standalone `Verify(message, signHex, pubHex)` ignores its
`pubHex` argument entirely — its result is the same for any two public-key
strings, for every message, signature and choice of the crypto primitives. -/
theorem claim_C9_verify_ignores_pubkey
    (sigToPub : List Nat → List Nat → Except String (List Nat))
    (keccak : List Nat → List Nat)
    (ecVerify : List Nat → List Nat → List Nat → Bool)
    (message : List Nat) (signHex p1 p2 : List Char) :
    Verify sigToPub keccak ecVerify message signHex p1
      = Verify sigToPub keccak ecVerify message signHex p2 := rfl

/-- Claim C2 counterexample: `SignKeys.Sign` — the signing routine used by
`signAndSendTx` for the keeper's AddProcessKeys / RevealProcessKeys admin
transactions — does NOT hash the canonical encoding directly: on the
one-byte message `[97]` the byte string fed to keccak256 is
`signPreimage [97] ≠ [97]`.  With a keccak that answers `[1]` on the bare
message and `[2]` elsewhere, and an identity ECDSA signer, `Sign` returns
the signature of `[2]` — so the prefix was applied. -/
theorem claim_C2_counterexample :
    signPreimage [97] ≠ [97] ∧
    skSign Except.ok (fun l => if l = [97] then [1] else [2]) true [97]
      = .ok (hexEncode [2]) := by
  constructor
  · decide
  · rfl

/-- Claim C2 amended: internal (on-chain) admin transaction signatures, as
submitted by `signAndSendTx`, ARE computed with the
`"\x19Ethereum Signed Message:\n" ++ decimal(len(msg))` prefix before
keccak256: `SignKeys.Sign` hashes `signPreimage msg`, and `signAndSendTx`
embeds exactly that signature (hex encoded) in the transaction it
broadcasts. -/
theorem claim_C2_amended_internal_tx_prefix_signing
    (marshal : AdminTxM → Except String (List Nat))
    (ecdsaSign : List Nat → Except String (List Nat))
    (keccak : List Nat → List Nat)
    (send : List Nat → Except String TxResult)
    (tx : AdminTxM) (txBytes sigBytes : List Nat)
    (h1 : marshal tx = .ok txBytes)
    (h2 : ecdsaSign (keccak (signPreimage txBytes)) = .ok sigBytes) :
    (∀ msg, skSign ecdsaSign keccak true msg
        = (ecdsaSign (keccak (signingPrefixBytes ++ decimalBytes msg.length
            ++ msg))).map hexEncode) ∧
    signAndSendTx marshal ecdsaSign keccak send true tx
      = match marshal { tx with signature := hexEncode sigBytes } with
        | .error e => .error e
        | .ok txBytes2 =>
          match send txBytes2 with
          | .error e => .error e
          | .ok res =>
            if res.code ≠ 0 then .error "error sending transaction"
            else .ok { tx with signature := hexEncode sigBytes } := by
  constructor
  · intro msg
    simp only [skSign, Hash, signPreimage, Bool.not_true]
    cases ecdsaSign (keccak (signingPrefixBytes ++ decimalBytes msg.length ++ msg)) <;>
      simp [Except.map]
  · simp only [signAndSendTx, h1, skSign, Hash, h2, Bool.not_true]
    rfl

theorem claim_C2_amended_witness :
    (fun (_ : AdminTxM) => (Except.ok [97] : Except String (List Nat)))
        ⟨"", 0, "", "", "", "", "", "", []⟩ = .ok [97] ∧
    (Except.ok : List Nat → Except String (List Nat))
        ((fun (_ : List Nat) => [7]) (signPreimage [97])) = .ok [7] ∧
    skSign Except.ok (fun (_ : List Nat) => [7]) true [97]
      = (Except.ok ((fun (_ : List Nat) => [7]) (signingPrefixBytes
          ++ decimalBytes ([97] : List Nat).length ++ [97]))).map hexEncode :=
  ⟨rfl, rfl,
   (claim_C2_amended_internal_tx_prefix_signing
      (fun _ => Except.ok [97]) Except.ok (fun _ => [7])
      (fun _ => Except.ok ⟨0, []⟩) ⟨"", 0, "", "", "", "", "", "", []⟩
      [97] [7] rfl rfl).1 [97]⟩

/-! ### Claim C6: recovery byte -/

theorem getD_mem {α : Type} (l : List α) (i : Nat) (d : α) (h : i < l.length) :
    l.getD i d ∈ l := by
  induction l generalizing i with
  | nil => simp at h
  | cons a t ih =>
    cases i with
    | zero => simp
    | succ m =>
      right
      exact ih m (by simpa using h)

theorem getD_set_self {α : Type} (l : List α) (i : Nat) (v d : α)
    (h : i < l.length) : (l.set i v).getD i d = v := by
  induction l generalizing i with
  | nil => simp at h
  | cons a t ih =>
    cases i with
    | zero => rfl
    | succ m => simpa using ih m (by simpa using h)

theorem hexDigitChar_not_x (n : Nat) (h : n < 16) :
    hexDigitChar n ≠ 'x' ∧ hexDigitChar n ≠ 'X' := by
  interval_cases n <;> decide

/-- Hex output of `%x` never carries a "0x" marker, so `TrimHex` fixes it. -/
theorem trimHex_hexEncode (bs : List Nat) :
    TrimHex (hexEncode bs) = hexEncode bs := by
  cases bs with
  | nil => rfl
  | cons b rest =>
    unfold TrimHex
    rw [if_neg]
    intro hc
    obtain ⟨hl, h0, h1⟩ := hc
    have hgd : (hexEncode (b :: rest)).getD 1 ' ' = hexDigitChar (b % 16) := rfl
    rw [hgd] at h1
    exact (hexDigitChar_not_x (b % 16) (by omega)).1 h1

/-- Claim C6: for a signature of valid hex length, `PubKeyFromSignature`
can recover a key only when the recovery byte `sig[64]` is one of
0, 1, 27, 28; any other value yields an error.  For 0/1 the signature is
passed through unchanged; for 27/28 the byte is normalised by
subtracting 27. -/
theorem claim_C6_recovery_byte
    (sigToPub : List Nat → List Nat → Except String (List Nat))
    (keccak : List Nat → List Nat) (msg : List Nat) (sigBytes : List Nat)
    (hb : ∀ b ∈ sigBytes, b < 256)
    (hlo : 65 ≤ sigBytes.length) (hhi : sigBytes.length ≤ 71) :
    (sigBytes.getD 64 0 ∉ ([0, 1, 27, 28] : List Nat) →
      ∃ e, PubKeyFromSignature sigToPub keccak msg (hexEncode sigBytes)
        = .error e) ∧
    (sigBytes.getD 64 0 = 0 ∨ sigBytes.getD 64 0 = 1 →
      PubKeyFromSignature sigToPub keccak msg (hexEncode sigBytes)
        = (sigToPub (Hash keccak msg) sigBytes).map hexEncode) ∧
    (sigBytes.getD 64 0 = 27 ∨ sigBytes.getD 64 0 = 28 →
      PubKeyFromSignature sigToPub keccak msg (hexEncode sigBytes)
        = (sigToPub (Hash keccak msg)
            (sigBytes.set 64 (sigBytes.getD 64 0 - 27))).map hexEncode) := by
  have h64 : 64 < sigBytes.length := by omega
  have hmem : sigBytes.getD 64 0 ∈ sigBytes := getD_mem _ _ _ h64
  have hblt : sigBytes.getD 64 0 < 256 := hb _ hmem
  have step : PubKeyFromSignature sigToPub keccak msg (hexEncode sigBytes)
      = (let sig2 := if sigBytes.getD 64 0 > 1
            then sigBytes.set 64 ((sigBytes.getD 64 0 + 229) % 256)
            else sigBytes;
         if sig2.getD 64 0 > 1 then .error "bad recover ID byte"
         else (sigToPub (Hash keccak msg) sig2).map hexEncode) := by
    unfold PubKeyFromSignature
    rw [trimHex_hexEncode, hexEncode_length]
    rw [if_neg (by simp only [SignatureLength, not_or, not_lt, gt_iff_lt]; omega)]
    rw [hexDecode_hexEncode _ hb]
  refine ⟨?_, ?_, ?_⟩
  · intro hnot
    simp only [List.mem_cons, List.not_mem_nil, or_false, not_or] at hnot
    obtain ⟨e0, e1, e27, e28⟩ := hnot
    have hgt : sigBytes.getD 64 0 > 1 := by omega
    rw [step, if_pos hgt]
    rw [if_pos (by rw [getD_set_self _ _ _ _ h64]; omega)]
    exact ⟨_, rfl⟩
  · intro hcase
    have hngt : ¬(sigBytes.getD 64 0 > 1) := by omega
    rw [step]
    simp only [if_neg hngt]
  · intro hcase
    have hgt : sigBytes.getD 64 0 > 1 := by omega
    rw [step, if_pos hgt]
    have hval : (sigBytes.getD 64 0 + 229) % 256 = sigBytes.getD 64 0 - 27 := by
      omega
    rw [hval]
    rw [if_neg (by rw [getD_set_self _ _ _ _ h64]; omega)]

theorem claim_C6_witness :
    (∀ b ∈ List.replicate 64 (0:Nat) ++ [2], b < 256) ∧
    65 ≤ (List.replicate 64 (0:Nat) ++ [2]).length ∧
    (List.replicate 64 (0:Nat) ++ [2]).length ≤ 71 ∧
    (∃ e, PubKeyFromSignature (fun _ _ => .ok []) (fun _ => []) []
      (hexEncode (List.replicate 64 (0:Nat) ++ [2])) = .error e) :=
  ⟨by decide, by decide, by decide,
   (claim_C6_recovery_byte (fun _ _ => .ok []) (fun _ => []) []
      (List.replicate 64 (0:Nat) ++ [2]) (by decide) (by decide)
      (by decide)).1 (by decide)⟩

/-! ## Scrutinizer (vochain/scrutinizer/vote.go)

External collaborators (vochain state, amino/json codecs, NaCl box
decryption) are function parameters; the scrutinizer's Badger storage is a
finite map from `(prefix, processId)` keys to byte values — `s.encode`
(not under src/) is modelled from the spec's disjoint key namespaces
(`liveProcess:<pid>`, `results:<pid>`) as the pair itself. -/

/-- `types.VotePackage` (not under src/).  Modelled from the spec: the
decrypted plaintext parses as JSON `{votes: [option per question]}`; the
nonce/type fields play no role in the tally. -/
structure VotePackage where
  votes : List Int
  deriving Repr, DecidableEq

/-- `types.Vote` as the scrutinizer reads it (the full type is not under
src/; modelled from the spec's VoteEnvelope).  `processID` is a nil-able
byte slice. -/
structure VoteM where
  processID : Option (List Nat)
  votePackage : List Nat
  encryptionKeyIndexes : List Nat
  nullifier : List Nat

/-- `types.Process` fields used by the scrutinizer (the full type is not
under src/; modelled from the spec): the encrypted flag and the revealed
private key slots. -/
structure ProcessM where
  isEncrypted : Bool
  encryptionPrivateKeys : List String

/-- One iteration of the decryption loop of `unmarshalVote`: decode the
private key `keys[i]` and decrypt the current ciphertext with it.
`decodePrivate` stands for `nacl.DecodePrivate`, `decrypt` for
`priv.Decrypt`. -/
def decryptStep {κ : Type} (decodePrivate : String → Except String κ)
    (decrypt : κ → List Nat → Except String (List Nat))
    (i : Nat) (key : String) (raw : List Nat) : Except String (List Nat) :=
  match decodePrivate key with
  | .error e => .error ("cannot create private key cipher: " ++ e)
  | .ok priv =>
    match decrypt priv raw with
    | .error _ => .error ("cannot decrypt vote with index key " ++ toString i)
    | .ok raw2 => .ok raw2

/-- The decryption loop of `unmarshalVote`: Go iterates
`i := len(keys)-1; i >= 0; i--`, so the LAST key in `keys` decrypts
first. -/
def decryptLoop {κ : Type} (decodePrivate : String → Except String κ)
    (decrypt : κ → List Nat → Except String (List Nat))
    (keys : List String) : Nat → List Nat → Except String (List Nat)
  | 0, raw => .ok raw
  | i+1, raw =>
    match decryptStep decodePrivate decrypt i (keys.getD i "") raw with
    | .error e => .error e
    | .ok raw2 => decryptLoop decodePrivate decrypt keys i raw2

/-- `unmarshalVote`: decrypt the vote package with the provided keys
(starting from the last one), then JSON-parse the plaintext.
`jsonUnmarshal` stands for `json.Unmarshal` into `types.VotePackage`. -/
def unmarshalVote {κ : Type} (decodePrivate : String → Except String κ)
    (decrypt : κ → List Nat → Except String (List Nat))
    (jsonUnmarshal : List Nat → Except String VotePackage)
    (votePackage : List Nat) (keys : List String) : Except String VotePackage :=
  match decryptLoop decodePrivate decrypt keys keys.length votePackage with
  | .error e => .error e
  | .ok raw => jsonUnmarshal raw

/-- The indexed keys in descending index order — `(n-1, kn) … (0, k1)` —
which is the claim's reading: the keys in the reverse of the order they
were used for encryption. -/
def descIndexedKeys (keys : List String) : List (Nat × String) :=
  ((List.range keys.length).map (fun j => (j, keys.getD j ""))).reverse

/-- Sequential decryption applying the listed keys first-to-last. -/
def applyKeysFirstToLast {κ : Type} (decodePrivate : String → Except String κ)
    (decrypt : κ → List Nat → Except String (List Nat)) :
    List (Nat × String) → List Nat → Except String (List Nat)
  | [], raw => .ok raw
  | (i, key) :: rest, raw =>
    match decryptStep decodePrivate decrypt i key raw with
    | .error e => .error e
    | .ok raw2 => applyKeysFirstToLast decodePrivate decrypt rest raw2

/-- The key-collection loop of `computeNonLiveResults`: map each entry of
`encryptionKeyIndexes`, in order, to `process.EncryptionPrivateKeys[k]`;
an index `≥ MaxKeyIndex` aborts with an error (Go sets `err` and breaks,
and the collected keys are then discarded). -/
def collectKeys (maxKeyIndex : Nat) (privKeys : List String) :
    List Nat → Except String (List String)
  | [] => .ok []
  | k :: rest =>
    if k ≥ maxKeyIndex then .error "key index overflow"
    else
      match collectKeys maxKeyIndex privKeys rest with
      | .error e => .error e
      | .ok keys => .ok (privKeys.getD k "" :: keys)

/-- One `pv[question][opt]++` step with uint32 wrap-around; `none` models a
Go index-out-of-range panic. -/
def bumpCounter (pv : List (List Nat)) (q o : Nat) : Option (List (List Nat)) :=
  if q < pv.length ∧ o < (pv.getD q []).length then
    some (pv.set q ((pv.getD q []).set o
      (((pv.getD q []).getD o 0 + 1) % 4294967296)))
  else none

/-- The tally loop shared verbatim by `addLiveResultsVote` and
`computeNonLiveResults`:
`for question, opt := range votes { if opt > MaxOptions { continue }; pv[question][opt]++ }`.
An out-of-range access (a Go panic, including a negative option) is an
error. -/
def tallyVotes (maxOptions : Nat) : List (List Nat) → Nat → List Int →
    Except String (List (List Nat))
  | pv, _, [] => .ok pv
  | pv, q, opt :: rest =>
    if opt > (maxOptions : Int) then tallyVotes maxOptions pv (q+1) rest
    else if 0 ≤ opt then
      match bumpCounter pv q opt.toNat with
      | some pv2 => tallyVotes maxOptions pv2 (q+1) rest
      | none => .error "index out of range"
    else .error "index out of range"

/-- Scrutinizer storage keys: `(prefix, processId)`. -/
abbrev ScrKey := String × List Nat

/-- The scrutinizer's Badger storage as an association list. -/
def ScrStorage := List (ScrKey × List Nat)

/-- `Storage.Get`; `none` is badger's ErrKeyNotFound. -/
def sGet (st : ScrStorage) (k : ScrKey) : Option (List Nat) :=
  List.lookup k st

/-- `Storage.Put`: overwrite the binding for `k`. -/
def sPut (st : ScrStorage) (k : ScrKey) (v : List Nat) : ScrStorage :=
  (k, v) :: List.filter (fun e => !(e.1 == k)) st

/-- `Storage.Del`. -/
def sDel (st : ScrStorage) (k : ScrKey) : ScrStorage :=
  List.filter (fun e => !(e.1 == k)) st

/-- External collaborators of the Scrutinizer, abstracted: vochain state
reads, the amino codec for `ProcessVotes`, the json codec for vote
packages, NaCl decryption, and the envelope iteration. -/
structure ScrExt (κ : Type) where
  stateProcess : List Nat → Except String ProcessM
  isLiveResultsProcess : List Nat → Except String Bool
  codecUnmarshalPV : List Nat → Except String (List (List Nat))
  codecMarshalPV : List (List Nat) → Except String (List Nat)
  jsonUnmarshalVP : List Nat → Except String VotePackage
  decodePrivate : String → Except String κ
  decrypt : κ → List Nat → Except String (List Nat)
  envelopeList : List Nat → List (List Nat)
  envelope : List Nat → List Nat → Except String VoteM

/-- `Scrutinizer.addLiveResultsVote` in state-passing form: the first
component is the resulting storage (unchanged whenever the second is an
error).  Faithful to the source, the running counters are read under the
`liveProcess` prefix but written back under the `process` prefix. -/
def addLiveResultsVote {κ : Type} (ext : ScrExt κ)
    (maxQuestions maxOptions : Nat) (st : ScrStorage) (envelope : VoteM) :
    ScrStorage × Except String Unit :=
  match envelope.processID with
  | none => (st, .error "cannot find process for envelope")
  | some pid =>
    match unmarshalVote ext.decodePrivate ext.decrypt ext.jsonUnmarshalVP
        envelope.votePackage [] with
    | .error e => (st, .error e)
    | .ok vote =>
      if vote.votes.length > maxQuestions then
        (st, .error "too many questions on addVote")
      else
        match sGet st ("liveProcess", pid) with
        | none => (st, .error "error adding vote to process, skipping addVote")
        | some processBytes =>
          match ext.codecUnmarshalPV processBytes with
          | .error _ => (st, .error "cannot unmarshal vote")
          | .ok pv =>
            match tallyVotes maxOptions pv 0 vote.votes with
            | .error e => (st, .error e)
            | .ok pv2 =>
              match ext.codecMarshalPV pv2 with
              | .error e => (st, .error e)
              | .ok processBytes2 =>
                (sPut st ("process", pid) processBytes2, .ok ())

/-- `emptyProcess` (not under src/).  Modelled from the spec: questions are
indexed `0..MaxQuestions-1` and options `0..MaxOptions-1`, all counters
zero. -/
def emptyProcess (maxQuestions maxOptions : Nat) : List (List Nat) :=
  List.replicate maxQuestions (List.replicate maxOptions 0)

/-- The descending scan of the Go `for ; j2 >= 0; j2--` loops: the largest
index `< hi` at which `row` is non-zero, or `-1`. -/
def lastNonZeroAux (row : List Nat) : Nat → Int
  | 0 => -1
  | j+1 => if row.getD j 0 ≠ 0 then (j : Int) else lastNonZeroAux row j

/-- Whether a question row holds a non-zero counter among its first
`maxOptions` options (the Go inner `j` loop of `pruneVoteResult`). -/
def rowHasNonZero (row : List Nat) (maxOptions : Nat) : Bool :=
  (List.range maxOptions).any (fun j => row.getD j 0 != 0)

/-- The largest question index `< hi` whose row has a non-zero counter,
or `-1` (the Go `min` loop). -/
def lastNonEmptyQuestion (pv : List (List Nat)) (maxOptions : Nat) :
    Nat → Int
  | 0 => -1
  | q+1 => if rowHasNonZero (pv.getD q []) maxOptions
      then (q : Int) else lastNonEmptyQuestion pv maxOptions q

/-- `pruneVoteResult`: trim trailing all-zero questions, then for each kept
question trim trailing zero options.  The Go loop rebuilds `pvc` on every
iteration of `i`; only the final iteration (`i = min`) survives, which is
what this computes. -/
def pruneVoteResult (maxQuestions maxOptions : Nat) (pv : List (List Nat)) :
    List (List Nat) :=
  let min := lastNonEmptyQuestion pv maxOptions maxQuestions
  if min < 0 then []
  else (List.range (min.toNat + 1)).map (fun i2 =>
    (pv.getD i2 []).take (lastNonZeroAux (pv.getD i2 []) maxOptions + 1).toNat)

/-- `Scrutinizer.computeLiveResults`: read and decode the running counters,
then prune. -/
def computeLiveResults {κ : Type} (ext : ScrExt κ)
    (maxQuestions maxOptions : Nat) (st : ScrStorage) (pid : List Nat) :
    Except String (List (List Nat)) :=
  match sGet st ("liveProcess", pid) with
  | none => .error "key not found"
  | some pb =>
    match ext.codecUnmarshalPV pb with
    | .error e => .error e
    | .ok pv => .ok (pruneVoteResult maxQuestions maxOptions pv)

/-- The per-envelope iteration of `computeNonLiveResults`: unreadable or
undecryptable envelopes are logged and skipped; a tally panic aborts. -/
def nonLiveLoop {κ : Type} (ext : ScrExt κ) (maxKeyIndex maxOptions : Nat)
    (p : ProcessM) (pid : List Nat) :
    List (List Nat) → List (List Nat) → Except String (List (List Nat))
  | pv, [] => .ok pv
  | pv, e :: rest =>
    match ext.envelope pid e with
    | .error _ => nonLiveLoop ext maxKeyIndex maxOptions p pid pv rest
    | .ok v =>
      let vpRes : Except String VotePackage :=
        if p.isEncrypted then
          if p.encryptionPrivateKeys.length < v.encryptionKeyIndexes.length then
            .error "encryptionKeyIndexes has too many fields"
          else
            match collectKeys maxKeyIndex p.encryptionPrivateKeys
                v.encryptionKeyIndexes with
            | .error _ => .error "no keys provided or wrong index"
            | .ok keys =>
              if keys.length = 0 then .error "no keys provided or wrong index"
              else unmarshalVote ext.decodePrivate ext.decrypt
                  ext.jsonUnmarshalVP v.votePackage keys
        else
          unmarshalVote ext.decodePrivate ext.decrypt ext.jsonUnmarshalVP
            v.votePackage []
      match vpRes with
      | .error _ => nonLiveLoop ext maxKeyIndex maxOptions p pid pv rest
      | .ok vp =>
        match tallyVotes maxOptions pv 0 vp.votes with
        | .error e => .error e
        | .ok pv2 => nonLiveLoop ext maxKeyIndex maxOptions p pid pv2 rest

/-- `Scrutinizer.computeNonLiveResults`: tally every stored envelope of the
process into a fresh counter matrix, then prune. -/
def computeNonLiveResults {κ : Type} (ext : ScrExt κ)
    (maxQuestions maxOptions maxKeyIndex : Nat) (pid : List Nat)
    (p : ProcessM) : Except String (List (List Nat)) :=
  match nonLiveLoop ext maxKeyIndex maxOptions p pid
      (emptyProcess maxQuestions maxOptions) (ext.envelopeList pid) with
  | .error e => .error e
  | .ok pv => .ok (pruneVoteResult maxQuestions maxOptions pv)

/-- `Scrutinizer.ComputeResult` in state-passing form. -/
def ComputeResult {κ : Type} (ext : ScrExt κ)
    (maxQuestions maxOptions maxKeyIndex : Nat) (st : ScrStorage)
    (pid : List Nat) : ScrStorage × Except String Unit :=
  match ext.stateProcess pid with
  | .error e => (st, .error e)
  | .ok p =>
    match sGet st ("results", pid) with
    | some _ => (st, .error "process already computed")
    | none =>
      match ext.isLiveResultsProcess pid with
      | .error e => (st, .error e)
      | .ok isLive =>
        if isLive then
          match computeLiveResults ext maxQuestions maxOptions st pid with
          | .error e => (st, .error e)
          | .ok pv =>
            let st2 := sDel st ("liveProcess", pid)
            match ext.codecMarshalPV pv with
            | .error e => (st2, .error e)
            | .ok result => (sPut st2 ("results", pid) result, .ok ())
        else
          match computeNonLiveResults ext maxQuestions maxOptions maxKeyIndex
              pid p with
          | .error e => (st, .error e)
          | .ok pv =>
            match ext.codecMarshalPV pv with
            | .error e => (st, .error e)
            | .ok result => (sPut st ("results", pid) result, .ok ())

/-! ### Claim C3: reverse-order decryption -/

theorem range_map_reverse_succ (keys : List String) (i : Nat) :
    ((List.range (i+1)).map (fun j => (j, keys.getD j ""))).reverse
      = (i, keys.getD i "") ::
        ((List.range i).map (fun j => (j, keys.getD j ""))).reverse := by
  rw [List.range_succ]
  simp

theorem decryptLoop_eq_desc {κ : Type} (dP : String → Except String κ)
    (d : κ → List Nat → Except String (List Nat)) (keys : List String)
    (i : Nat) (raw : List Nat) :
    decryptLoop dP d keys i raw
      = applyKeysFirstToLast dP d
          (((List.range i).map (fun j => (j, keys.getD j ""))).reverse) raw := by
  induction i generalizing raw with
  | zero => rfl
  | succ i ih =>
    rw [range_map_reverse_succ]
    simp only [decryptLoop, applyKeysFirstToLast]
    cases decryptStep dP d i (keys.getD i "") raw with
    | error e => rfl
    | ok raw2 => exact ih raw2

/-- Claim C3: `unmarshalVote` decrypts by applying the provided keys in
exactly the reverse of their list order — the indexed keys in descending
index order, last key first — before JSON-parsing the plaintext; and
`computeNonLiveResults` hands it the private keys in the order listed by
the envelope's `encryptionKeyIndexes` (provided all indexes are below
MaxKeyIndex). -/
theorem claim_C3_reverse_order_decryption {κ : Type}
    (dP : String → Except String κ)
    (d : κ → List Nat → Except String (List Nat))
    (jsonU : List Nat → Except String VotePackage)
    (votePackage : List Nat) (keys : List String)
    (maxKeyIndex : Nat) (privKeys : List String) (idxs : List Nat) :
    (unmarshalVote dP d jsonU votePackage keys
      = match applyKeysFirstToLast dP d (descIndexedKeys keys) votePackage with
        | .error e => .error e
        | .ok raw => jsonU raw) ∧
    ((∀ k ∈ idxs, k < maxKeyIndex) →
      collectKeys maxKeyIndex privKeys idxs
        = .ok (idxs.map (fun k => privKeys.getD k ""))) := by
  constructor
  · unfold unmarshalVote descIndexedKeys
    rw [decryptLoop_eq_desc]
  · induction idxs with
    | nil => intro _; rfl
    | cons k rest ih =>
      intro hidx
      have hk : k < maxKeyIndex := hidx k (by simp)
      simp only [collectKeys]
      rw [if_neg (by omega)]
      rw [ih (fun x hx => hidx x (List.mem_cons_of_mem _ hx))]
      rfl

theorem claim_C3_witness :
    (∀ k ∈ ([0, 1] : List Nat), k < 3) ∧
    collectKeys 3 ["a", "b"] [0, 1] = .ok ["a", "b"] :=
  ⟨by decide, by
    have h := (claim_C3_reverse_order_decryption (κ := Unit)
      (fun _ => .ok ()) (fun _ r => .ok r) (fun _ => .ok ⟨[]⟩) [] []
      3 ["a", "b"] [0, 1]).2 (by decide)
    simpa using h⟩

/-! ### Claim C5: ComputeResult on existing results -/

/-- Claim C5: if the `results` entry for a process already exists, then
`ComputeResult` returns an error and leaves the scrutinizer storage
unchanged (no key written or deleted). -/
theorem claim_C5_computeResult_already_computed {κ : Type} (ext : ScrExt κ)
    (mq mo mki : Nat) (st : ScrStorage) (pid : List Nat) (v : List Nat)
    (h : sGet st ("results", pid) = some v) :
    (ComputeResult ext mq mo mki st pid).1 = st ∧
    ∃ e, (ComputeResult ext mq mo mki st pid).2 = .error e := by
  unfold ComputeResult
  cases hp : ext.stateProcess pid with
  | error e => exact ⟨rfl, e, rfl⟩
  | ok p =>
    rw [h]
    exact ⟨rfl, _, rfl⟩

/-- A trivial instantiation of the scrutinizer's collaborators. -/
def extTriv : ScrExt Unit where
  stateProcess := fun _ => .ok ⟨false, []⟩
  isLiveResultsProcess := fun _ => .ok false
  codecUnmarshalPV := fun _ => .ok []
  codecMarshalPV := fun _ => .ok []
  jsonUnmarshalVP := fun _ => .ok ⟨[]⟩
  decodePrivate := fun _ => .ok ()
  decrypt := fun _ r => .ok r
  envelopeList := fun _ => []
  envelope := fun _ _ => .error "not found"

/-- A one-entry storage already holding results for process `[1]`. -/
def stC5 : ScrStorage := [(("results", [1]), [2])]

theorem claim_C5_witness :
    sGet stC5 ("results", [1]) = some [2] ∧
    (ComputeResult extTriv 64 64 16 stC5 [1]).1 = stC5 ∧
    ∃ e, (ComputeResult extTriv 64 64 16 stC5 [1]).2 = .error e :=
  ⟨rfl,
   (claim_C5_computeResult_already_computed extTriv 64 64 16 stC5 [1] [2] rfl).1,
   (claim_C5_computeResult_already_computed extTriv 64 64 16 stC5 [1] [2] rfl).2⟩

/-! ### Claim C4: MaxQuestions / MaxOptions handling in the tallies -/

theorem getD_set_ne {α : Type} (l : List α) (i j : Nat) (v d : α)
    (hne : i ≠ j) : (l.set i v).getD j d = l.getD j d := by
  induction l generalizing i j with
  | nil => simp
  | cons a t ih =>
    cases i with
    | zero =>
      cases j with
      | zero => omega
      | succ m => rfl
    | succ n =>
      cases j with
      | zero => rfl
      | succ m => simpa using ih n m (by omega)

/-- Counter lookup `pv[q][o]` with zero default. -/
def pvGet (pv : List (List Nat)) (q o : Nat) : Nat :=
  (pv.getD q []).getD o 0

/-- The positions `tallyVotes` increments when started at question `q0`:
question `q` carries vote entry `votes[q - q0]`, and that entry is counted
at option `o` iff it equals `o` and does not exceed `maxOptions`. -/
abbrev tallyIndicator (mo : Nat) (votes : List Int) (q0 q o : Nat) : Prop :=
  q0 ≤ q ∧ q - q0 < votes.length ∧
    votes.getD (q - q0) 0 = (o : Int) ∧ (o : Int) ≤ (mo : Int)

theorem tallyIndicator_cons_shift (mo : Nat) (v : Int) (vs : List Int)
    (q0 q o : Nat) (hq : q0 + 1 ≤ q) :
    tallyIndicator mo (v :: vs) q0 q o ↔ tallyIndicator mo vs (q0+1) q o := by
  constructor
  · rintro ⟨h1, h2, h3, h4⟩
    have hqe : q - q0 = (q - (q0+1)) + 1 := by omega
    rw [hqe, List.getD_cons_succ] at h3
    exact ⟨hq, by simp at h2; omega, h3, h4⟩
  · rintro ⟨h1, h2, h3, h4⟩
    have hqe : q - q0 = (q - (q0+1)) + 1 := by omega
    refine ⟨by omega, by simp; omega, ?_, h4⟩
    rw [hqe, List.getD_cons_succ]
    exact h3

theorem tallyIndicator_cons_at (mo : Nat) (v : Int) (vs : List Int)
    (q0 o : Nat) :
    tallyIndicator mo (v :: vs) q0 q0 o ↔ (v = (o : Int) ∧ (o : Int) ≤ (mo : Int)) := by
  constructor
  · rintro ⟨_, _, h3, h4⟩
    have hz : q0 - q0 = 0 := by omega
    rw [hz, List.getD_cons_zero] at h3
    exact ⟨h3, h4⟩
  · rintro ⟨h3, h4⟩
    refine ⟨le_refl _, by simp, ?_, h4⟩
    have hz : q0 - q0 = 0 := by omega
    rw [hz, List.getD_cons_zero]
    exact h3

theorem tallyIndicator_lt (mo : Nat) (votes : List Int) (q0 q o : Nat)
    (hq : q < q0) : ¬ tallyIndicator mo votes q0 q o := by
  rintro ⟨h1, _, _⟩
  omega

/-- Full characterisation of the shared tally loop: it succeeds whenever
every entry is either above `maxOptions` (and is then skipped) or a
non-negative in-range option, and the resulting counters are the old ones
plus one (mod `2^32`) exactly at the counted positions. -/
theorem tallyVotes_spec (mo : Nat) (votes : List Int) :
    ∀ (pv : List (List Nat)) (q0 : Nat),
    (∀ i, i < votes.length →
      (mo : Int) < votes.getD i 0 ∨
      (0 ≤ votes.getD i 0 ∧ q0 + i < pv.length ∧
        (votes.getD i 0).toNat < (pv.getD (q0 + i) []).length)) →
    ∃ pv2, tallyVotes mo pv q0 votes = .ok pv2 ∧
      ∀ q o, pvGet pv2 q o =
        if tallyIndicator mo votes q0 q o
        then (pvGet pv q o + 1) % 4294967296
        else pvGet pv q o := by
  induction votes with
  | nil =>
    intro pv q0 _
    refine ⟨pv, rfl, fun q o => ?_⟩
    rw [if_neg]
    rintro ⟨_, h2, _⟩
    simp at h2
  | cons v vs ih =>
    intro pv q0 hok
    have h0 := hok 0 (by simp)
    simp only [List.getD_cons_zero, Nat.add_zero] at h0
    by_cases hv : (mo : Int) < v
    · -- `opt > MaxOptions`: the entry is skipped
      have hok2 : ∀ i, i < vs.length →
          (mo : Int) < vs.getD i 0 ∨
          (0 ≤ vs.getD i 0 ∧ (q0+1) + i < pv.length ∧
            (vs.getD i 0).toNat < (pv.getD ((q0+1) + i) []).length) := by
        intro i hi
        have hsh := hok (i+1) (by simp; omega)
        have heq : q0 + (i+1) = (q0+1) + i := by omega
        rw [heq] at hsh
        simpa using hsh
      obtain ⟨pv2, ht, hs⟩ := ih pv (q0+1) hok2
      refine ⟨pv2, ?_, ?_⟩
      · simp only [tallyVotes]
        rw [if_pos hv]
        exact ht
      · intro q o
        rw [hs q o]
        rcases Nat.lt_or_ge q (q0+1) with hqlt | hqge
        · rw [if_neg (tallyIndicator_lt mo vs (q0+1) q o hqlt)]
          rcases Nat.lt_or_ge q q0 with hq0 | hq0
          · rw [if_neg (tallyIndicator_lt mo (v :: vs) q0 q o hq0)]
          · have hqq : q = q0 := by omega
            subst hqq
            rw [if_neg]
            intro hfull
            have := (tallyIndicator_cons_at mo v vs q o).mp hfull
            omega
        · by_cases hi : tallyIndicator mo vs (q0+1) q o
          · rw [if_pos hi,
              if_pos ((tallyIndicator_cons_shift mo v vs q0 q o hqge).mpr hi)]
          · rw [if_neg hi, if_neg
              (fun hfull => hi ((tallyIndicator_cons_shift mo v vs q0 q o hqge).mp hfull))]
    · -- in-range entry: `pv[q0][v]++`
      have h0r := h0.resolve_left hv
      obtain ⟨hv0, hqlen, holen⟩ := h0r
      have hbump : bumpCounter pv q0 v.toNat
          = some (pv.set q0 ((pv.getD q0 []).set v.toNat
              (((pv.getD q0 []).getD v.toNat 0 + 1) % 4294967296))) := by
        unfold bumpCounter
        rw [if_pos ⟨hqlen, holen⟩]
      have hok2 : ∀ i, i < vs.length →
          (mo : Int) < vs.getD i 0 ∨
          (0 ≤ vs.getD i 0 ∧
            (q0+1) + i < (pv.set q0 ((pv.getD q0 []).set v.toNat
              (((pv.getD q0 []).getD v.toNat 0 + 1) % 4294967296))).length ∧
            (vs.getD i 0).toNat <
              ((pv.set q0 ((pv.getD q0 []).set v.toNat
                (((pv.getD q0 []).getD v.toNat 0 + 1) % 4294967296))).getD
                  ((q0+1) + i) []).length) := by
        intro i hi
        have hsh := hok (i+1) (by simp; omega)
        have heq : q0 + (i+1) = (q0+1) + i := by omega
        rw [heq] at hsh
        rcases hsh with hl | ⟨ha, hb, hc⟩
        · left; simpa using hl
        · right
          refine ⟨by simpa using ha, by simpa using hb, ?_⟩

          rw [getD_set_ne _ _ _ _ _ (by omega)]
          simpa using hc
      obtain ⟨pv2, ht, hs⟩ := ih _ (q0+1) hok2
      refine ⟨pv2, ?_, ?_⟩
      · simp only [tallyVotes]
        rw [if_neg hv, if_pos hv0, hbump]
        exact ht
      · intro q o
        rw [hs q o]
        rcases Nat.lt_or_ge q (q0+1) with hqlt | hqge
        · rw [if_neg (tallyIndicator_lt mo vs (q0+1) q o hqlt)]
          rcases Nat.lt_or_ge q q0 with hq0 | hq0
          · rw [if_neg (tallyIndicator_lt mo (v :: vs) q0 q o hq0)]
            unfold pvGet
            rw [getD_set_ne _ _ _ _ _ (by omega)]
          · have hqq : q = q0 := by omega
            subst hqq
            by_cases hoe : o = v.toNat
            · subst hoe
              have hfull : tallyIndicator mo (v :: vs) q q (v.toNat) := by
                refine (tallyIndicator_cons_at mo v vs q (v.toNat)).mpr ⟨?_, ?_⟩
                · omega
                · omega
              rw [if_pos hfull]
              unfold pvGet
              rw [getD_set_self _ _ _ _ hqlen,
                getD_set_self _ _ _ _ holen]
            · rw [if_neg]
              · unfold pvGet
                rw [getD_set_self _ _ _ _ hqlen,
                  getD_set_ne _ _ _ _ _ (fun hc => hoe hc.symm)]
              · intro hfull
                have := (tallyIndicator_cons_at mo v vs q o).mp hfull
                omega
        · have hB : pvGet (pv.set q0 ((pv.getD q0 []).set v.toNat
              (((pv.getD q0 []).getD v.toNat 0 + 1) % 4294967296))) q o
              = pvGet pv q o := by
            unfold pvGet
            rw [getD_set_ne _ _ _ _ _ (by omega)]
          rw [hB]
          by_cases hi : tallyIndicator mo vs (q0+1) q o
          · rw [if_pos hi,
              if_pos ((tallyIndicator_cons_shift mo v vs q0 q o hqge).mpr hi)]
          · rw [if_neg hi, if_neg
              (fun hfull => hi ((tallyIndicator_cons_shift mo v vs q0 q o hqge).mp hfull))]

theorem getD_replicate {α : Type} (n : Nat) (a d : α) (q : Nat) (h : q < n) :
    (List.replicate n a).getD q d = a := by
  induction n generalizing q with
  | zero => omega
  | succ m ih =>
    cases q with
    | zero => rfl
    | succ k =>
      rw [List.replicate_succ, List.getD_cons_succ]
      exact ih k (by omega)

/-- The non-live tally has no MaxQuestions guard: when every entry is a
non-negative option below `maxOptions` (so none is dropped) but there are
more entries than counter rows, the shared loop runs off the end of the
matrix — a Go index-out-of-range panic, an error here. -/
theorem tallyVotes_overflow_error (mo : Nat) (votes : List Int) :
    ∀ (pv : List (List Nat)) (q0 : Nat),
    (∀ q, q < pv.length → (pv.getD q []).length = mo) →
    (∀ i, i < votes.length → 0 ≤ votes.getD i 0 ∧ votes.getD i 0 < (mo : Int)) →
    0 < votes.length →
    pv.length < q0 + votes.length →
    ∃ msg, tallyVotes mo pv q0 votes = .error msg := by
  induction votes with
  | nil =>
    intro pv q0 _ _ hpos _
    simp at hpos
  | cons v vs ih =>
    intro pv q0 hrows hentries _ hover
    have h0 := hentries 0 (by simp)
    simp only [List.getD_cons_zero] at h0
    obtain ⟨hv0, hvlt⟩ := h0
    have hnotgt : ¬ ((mo : Int) < v) := by omega
    by_cases hq : q0 < pv.length
    · have hcol : v.toNat < (pv.getD q0 []).length := by
        rw [hrows q0 hq]; omega
      have hbump : bumpCounter pv q0 v.toNat
          = some (pv.set q0 ((pv.getD q0 []).set v.toNat
              (((pv.getD q0 []).getD v.toNat 0 + 1) % 4294967296))) := by
        unfold bumpCounter
        rw [if_pos ⟨hq, hcol⟩]
      have hrows2 : ∀ q, q < (pv.set q0 ((pv.getD q0 []).set v.toNat
          (((pv.getD q0 []).getD v.toNat 0 + 1) % 4294967296))).length →
          ((pv.set q0 ((pv.getD q0 []).set v.toNat
            (((pv.getD q0 []).getD v.toNat 0 + 1) % 4294967296))).getD q []).length
          = mo := by
        intro q hqlt
        rw [List.length_set] at hqlt
        by_cases hqq : q = q0
        · subst hqq
          rw [getD_set_self _ _ _ _ hq, List.length_set]
          exact hrows q hqlt
        · rw [getD_set_ne _ _ _ _ _ (fun hc => hqq hc.symm)]
          exact hrows q hqlt
      have hentries2 : ∀ i, i < vs.length →
          0 ≤ vs.getD i 0 ∧ vs.getD i 0 < (mo : Int) := by
        intro i hi
        have := hentries (i+1) (by simp; omega)
        simpa using this
      obtain ⟨msg, hmsg⟩ := ih _ (q0+1) hrows2 hentries2
        (by simp at hover; omega)
        (by rw [List.length_set]; simp at hover; omega)
      refine ⟨msg, ?_⟩
      simp only [tallyVotes]
      rw [if_neg hnotgt, if_pos hv0, hbump]
      exact hmsg
    · have hbump : bumpCounter pv q0 v.toNat = none := by
        unfold bumpCounter
        rw [if_neg (fun hc => hq hc.1)]
      refine ⟨"index out of range", ?_⟩
      simp only [tallyVotes]
      rw [if_neg hnotgt, if_pos hv0, hbump]

/-- Scrutinizer collaborators whose vote packages decode to two vote
entries. -/
def extC4 : ScrExt Unit :=
  { extTriv with jsonUnmarshalVP := fun _ => .ok ⟨[0, 0]⟩ }

/-- A plain envelope for process `[1]`. -/
def envC4 : VoteM :=
  { processID := some [1], votePackage := [], encryptionKeyIndexes := [],
    nullifier := [] }

/-- Claim C4 counterexample: with `MaxQuestions = 1`, an envelope whose
vote package parses to 2 entries is NOT tallied with the overflow entries
dropped — `addLiveResultsVote` rejects the whole envelope with an error. -/
theorem claim_C4_counterexample :
    (addLiveResultsVote extC4 1 5 [] envC4).2
      = .error "too many questions on addVote" := rfl

/-- Claim C4 amended: in both tallies, vote entries whose option exceeds
`MaxOptions` are silently dropped while the rest of the envelope's in-range
votes are still counted (the shared loop `tallyVotes`), and an envelope
within the question limit is not rejected; BUT an envelope with more than
`MaxQuestions` entries is rejected outright by `addLiveResultsVote` with
an error, and `computeNonLiveResults` — which has no MaxQuestions guard —
aborts with an index-out-of-range error when an otherwise-valid decoded
envelope has more questions than the counter matrix, instead of dropping
the excess entries. -/
theorem claim_C4_amended_overflow_handling {κ : Type} (ext : ScrExt κ)
    (mq mo : Nat) (st : ScrStorage) (env : VoteM) (pid : List Nat)
    (vp : VotePackage) :
    (env.processID = some pid →
      unmarshalVote ext.decodePrivate ext.decrypt ext.jsonUnmarshalVP
        env.votePackage [] = .ok vp →
      vp.votes.length > mq →
      (addLiveResultsVote ext mq mo st env).2
        = .error "too many questions on addVote") ∧
    (∀ pv : List (List Nat),
      (∀ i, i < vp.votes.length →
        (mo : Int) < vp.votes.getD i 0 ∨
        (0 ≤ vp.votes.getD i 0 ∧ i < pv.length ∧
          (vp.votes.getD i 0).toNat < (pv.getD i []).length)) →
      ∃ pv2, tallyVotes mo pv 0 vp.votes = .ok pv2 ∧
        ∀ q o, pvGet pv2 q o =
          if tallyIndicator mo vp.votes 0 q o
          then (pvGet pv q o + 1) % 4294967296
          else pvGet pv q o) ∧
    (env.processID = some pid →
      unmarshalVote ext.decodePrivate ext.decrypt ext.jsonUnmarshalVP
        env.votePackage [] = .ok vp →
      ¬ vp.votes.length > mq →
      ∀ pb pv pv2 out,
        sGet st ("liveProcess", pid) = some pb →
        ext.codecUnmarshalPV pb = .ok pv →
        tallyVotes mo pv 0 vp.votes = .ok pv2 →
        ext.codecMarshalPV pv2 = .ok out →
        addLiveResultsVote ext mq mo st env
          = (sPut st ("process", pid) out, .ok ())) ∧
    (∀ (mki : Nat) (p : ProcessM) (e0 : List Nat) (v : VoteM),
      p.isEncrypted = false →
      ext.envelopeList pid = [e0] →
      ext.envelope pid e0 = .ok v →
      unmarshalVote ext.decodePrivate ext.decrypt ext.jsonUnmarshalVP
        v.votePackage [] = .ok vp →
      mq < vp.votes.length →
      (∀ i, i < vp.votes.length →
        0 ≤ vp.votes.getD i 0 ∧ vp.votes.getD i 0 < (mo : Int)) →
      ∃ msg, computeNonLiveResults ext mq mo mki pid p = .error msg) := by
  refine ⟨?_, ?_, ?_, ?_⟩
  · intro hpid hjson hlen
    simp only [addLiveResultsVote, hpid, hjson, if_pos hlen]
  · intro pv hok
    have h := tallyVotes_spec mo vp.votes pv 0 (by simpa using hok)
    exact h
  · intro hpid hjson hlen pb pv pv2 out hget hdec htally hmar
    simp only [addLiveResultsVote, hpid, hjson, if_neg hlen, hget, hdec,
      htally, hmar]
  · intro mki p e0 v hEnc hlist henv hjson hlen hentries
    have hrows : ∀ q, q < (emptyProcess mq mo).length →
        ((emptyProcess mq mo).getD q []).length = mo := by
      intro q hqlt
      unfold emptyProcess at hqlt ⊢
      rw [List.length_replicate] at hqlt
      rw [getD_replicate _ _ _ _ hqlt]
      exact List.length_replicate _ _
    have hover : (emptyProcess mq mo).length < 0 + vp.votes.length := by
      unfold emptyProcess
      rw [List.length_replicate]
      omega
    obtain ⟨msg, htally⟩ := tallyVotes_overflow_error mo vp.votes
      (emptyProcess mq mo) 0 hrows hentries (by omega) hover
    have hloop : nonLiveLoop ext mki mo p pid (emptyProcess mq mo) [e0]
        = .error msg := by
      simp only [nonLiveLoop, henv, hEnc, Bool.false_eq_true, if_false,
        hjson, htally]
    refine ⟨msg, ?_⟩
    unfold computeNonLiveResults
    rw [hlist, hloop]

theorem claim_C4_amended_witness :
    envC4.processID = some [1] ∧
    unmarshalVote extC4.decodePrivate extC4.decrypt extC4.jsonUnmarshalVP
      envC4.votePackage [] = .ok ⟨[0, 0]⟩ ∧
    ([0, 0] : List Int).length > 1 ∧
    (addLiveResultsVote extC4 1 5 [] envC4).2
      = .error "too many questions on addVote" :=
  ⟨rfl, rfl, by decide,
   (claim_C4_amended_overflow_handling extC4 1 5 [] envC4 [1] ⟨[0, 0]⟩).1
     rfl rfl (by decide)⟩

/-! ## KeyKeeper (vochain/keykeeper) -/

/-- An X25519-style keypair as `crypto/nacl` hands it out. -/
structure NaclKeyPair where
  Private : List Nat
  Public : List Nat

/-- `nacl.FromHex` (crypto/nacl is not under src/).  Modelled from the
spec: "Derive an X25519-style keypair from seed — privKey = seed,
pubKey = derivePublic(seed)"; the hex string must decode to a 32-byte
seed.  `derivePublic` abstracts the curve operation. -/
def naclFromHex (derivePublic : List Nat → List Nat) (s : List Char) :
    Except String NaclKeyPair :=
  match hexDecode s with
  | none => .error "cannot decode hex seed"
  | some seed =>
    if seed.length = 32 then .ok ⟨seed, derivePublic seed⟩
    else .error "wrong seed length"

/-- `KeyKeeper.generateKeys`: decode the process id, append the keeper
index byte, take `seed = keccak256(signer.Private.D.Bytes() ‖ pid ‖ index)`
(`HashRaw`), derive the encryption keypair from the hex-printed seed
(`nacl.FromHex`), and chain `revealKey = HashPoseidon(privKey)` and
`commitmentKey = HashPoseidon(revealKey bytes)`, each copied into a
32-byte array.  `poseidonHash` stands for `signature.HashPoseidon`. -/
def generateKeys (keccak poseidonHash derivePublic : List Nat → List Nat)
    (signerD : List Nat) (myIndex : Int) (pid : List Char) :
    Except String processKeys :=
  match hexDecode pid with
  | none => .error "cannot decode process id"
  | some pb0 =>
    let pb := pb0 ++ [byteOfInt8 myIndex]
    match naclFromHex derivePublic (hexEncode (HashRaw keccak (signerD ++ pb))) with
    | .error e => .error ("cannot generate encryption key: " ++ e)
    | .ok ek =>
      let ckb := poseidonHash ek.Private
      let ck := copyInto (List.replicate 32 0) 0 ckb
      let ckhash := copyInto (List.replicate 32 0) 0 (poseidonHash ckb)
      .ok { privKey := ek.Private, pubKey := ek.Public,
            revealKey := ck, commitmentKey := ckhash, index := myIndex }

theorem copyInto_exact32 (p : List Nat) (hp : p.length = 32) :
    copyInto (List.replicate 32 0) 0 p = p := by
  unfold copyInto
  rw [List.take_zero, List.nil_append, List.length_replicate, Nat.sub_zero,
    take_ge p 32 (by omega), Nat.zero_add, hp]
  have hd : (List.replicate 32 (0:Nat)).drop 32 = [] := by decide
  rw [hd, List.append_nil]

/-- Claim C1: `generateKeys` satisfies the derivation chain — the private
key is `keccak256(keeperPrivateScalar ‖ pid ‖ index)`, the reveal key is
`HashPoseidon(privKey)`, and the commitment key is
`HashPoseidon(revealKey)` — whenever keccak256 yields 32 bytes and
Poseidon yields 32 bytes (as the real primitives do). -/
theorem claim_C1_generateKeys_derivation
    (keccak poseidonHash derivePublic : List Nat → List Nat)
    (signerD : List Nat) (myIndex : Int) (pidBytes : List Nat)
    (hpid : ∀ b ∈ pidBytes, b < 256)
    (hkec_len : ∀ x, (keccak x).length = 32)
    (hkec_bytes : ∀ x, ∀ b ∈ keccak x, b < 256)
    (hpos_len : ∀ x, (poseidonHash x).length = 32) :
    ∃ pk, generateKeys keccak poseidonHash derivePublic signerD myIndex
        (hexEncode pidBytes) = .ok pk ∧
      pk.privKey = keccak (signerD ++ (pidBytes ++ [byteOfInt8 myIndex])) ∧
      pk.revealKey = poseidonHash pk.privKey ∧
      pk.commitmentKey = poseidonHash pk.revealKey ∧
      pk.pubKey = derivePublic pk.privKey ∧
      pk.index = myIndex := by
  have hd1 : hexDecode (hexEncode pidBytes) = some pidBytes :=
    hexDecode_hexEncode _ hpid
  have hd2 : hexDecode (hexEncode (keccak
      (signerD ++ (pidBytes ++ [byteOfInt8 myIndex]))))
      = some (keccak (signerD ++ (pidBytes ++ [byteOfInt8 myIndex]))) :=
    hexDecode_hexEncode _ (hkec_bytes _)
  have hc1 : copyInto (List.replicate 32 0)
      0 (poseidonHash (keccak (signerD ++ (pidBytes ++ [byteOfInt8 myIndex]))))
      = poseidonHash (keccak (signerD ++ (pidBytes ++ [byteOfInt8 myIndex]))) :=
    copyInto_exact32 _ (hpos_len _)
  refine ⟨{ privKey := keccak (signerD ++ (pidBytes ++ [byteOfInt8 myIndex]))
            pubKey := derivePublic (keccak (signerD ++ (pidBytes ++ [byteOfInt8 myIndex])))
            revealKey := copyInto (List.replicate 32 0) 0
              (poseidonHash (keccak (signerD ++ (pidBytes ++ [byteOfInt8 myIndex]))))
            commitmentKey := copyInto (List.replicate 32 0) 0
              (poseidonHash (poseidonHash
                (keccak (signerD ++ (pidBytes ++ [byteOfInt8 myIndex])))))
            index := myIndex }, ?_, rfl, ?_, ?_, rfl, rfl⟩
  · simp only [generateKeys, naclFromHex, HashRaw, hd1, hd2,
      if_pos (hkec_len _)]
  · exact hc1
  · rw [hc1, copyInto_exact32 _ (hpos_len _)]

theorem claim_C1_witness :
    (∀ b ∈ ([171] : List Nat), b < 256) ∧
    ∃ pk, generateKeys (fun _ => List.replicate 32 9)
        (fun _ => List.replicate 32 8) (fun s => s) [1] (-3)
        (hexEncode [171]) = .ok pk ∧
      pk.privKey = (fun (_ : List Nat) => List.replicate 32 9)
        ([1] ++ ([171] ++ [byteOfInt8 (-3)])) ∧
      pk.revealKey = (fun (_ : List Nat) => List.replicate 32 8) pk.privKey ∧
      pk.commitmentKey = (fun (_ : List Nat) => List.replicate 32 8) pk.revealKey ∧
      pk.pubKey = (fun (s : List Nat) => s) pk.privKey ∧
      pk.index = -3 :=
  ⟨by decide,
   claim_C1_generateKeys_derivation (fun _ => List.replicate 32 9)
     (fun _ => List.replicate 32 8) (fun s => s) [1] (-3) [171]
     (by decide) (fun _ => rfl)
     (fun _ b hb => by
       have := List.eq_of_mem_replicate hb
       omega)
     (fun _ => rfl)⟩

/-! ### Claim C7: the rescue pass over scheduled reveal buckets -/

/-- Value of a decimal digit character. -/
def decDigitVal (c : Char) : Option Nat :=
  if '0' ≤ c ∧ c ≤ '9' then some (c.toNat - 48) else none

/-- Digit-accumulating core of `strconv.ParseInt`. -/
def parseDecAux : List Char → Nat → Option Nat
  | [], acc => some acc
  | c :: rest, acc =>
    match decDigitVal c with
    | none => none
    | some d => parseDecAux rest (acc * 10 + d)

/-- `strconv.ParseInt(s, 10, 64)` on the bucket-key suffix: an optional
sign followed by at least one digit (the int64 overflow bound is not
modelled; scheduled heights are far below it). -/
def parseDecimal (s : List Char) : Option Int :=
  match s with
  | [] => none
  | '-' :: rest =>
    if rest = [] then none
    else (parseDecAux rest 0).map (fun n => -(n : Int))
  | '+' :: rest =>
    if rest = [] then none
    else (parseDecAux rest 0).map (fun n => (n : Int))
  | s => (parseDecAux s 0).map (fun n => (n : Int))

/-- Matches `strings.HasPrefix(key, "b_")` and returns `key[len("b_"):]`. -/
def stripBucketPrefix : List Char → Option (List Char)
  | 'b' :: '_' :: suffix => some suffix
  | _ => none

/-- The scheduled height encoded in a `b_<h>` bucket key, if any. -/
def bucketHeight (key : List Char) : Option Int :=
  match stripBucketPrefix key with
  | none => none
  | some suffix => parseDecimal suffix

/-- What one storage entry contributes to `RevealUnpublished`: nothing for
keys without the `b_` prefix, unparsable heights, buckets with
`header.Height <= h + 2`, or undecodable values; otherwise the decoded pid
list.  `unmarshalPids` stands for the amino decoding of the pid list. -/
def bucketContribution
    (unmarshalPids : List Nat → Except String (List String))
    (height : Int) (key : List Char) (val : List Nat) : List String :=
  match bucketHeight key with
  | none => []
  | some h =>
    if height ≤ h + 2 then [] else (unmarshalPids val).toOption.getD []

/-- The iteration of `KeyKeeper.RevealUnpublished` over the keeper's local
storage, collecting the process ids for which `revealKeys` is attempted,
in storage order.  `height` is the chain header height (when the header is
nil the whole pass is skipped). -/
def revealUnpublishedTargets
    (unmarshalPids : List Nat → Except String (List String))
    (height : Int) : List (List Char × List Nat) → List String
  | [] => []
  | (key, val) :: rest =>
    bucketContribution unmarshalPids height key val
      ++ revealUnpublishedTargets unmarshalPids height rest

/-- The claim's reading of one entry: exactly the pids stored under a
scheduled bucket key `b_<h>` with `h + 2 < currentHeight`. -/
def bucketSpecContribution
    (unmarshalPids : List Nat → Except String (List String))
    (height : Int) (key : List Char) (val : List Nat) : List String :=
  match bucketHeight key with
  | none => []
  | some h =>
    if h + 2 < height then (unmarshalPids val).toOption.getD [] else []

/-- The claim's reading of the rescue pass. -/
def revealSpecTargets
    (unmarshalPids : List Nat → Except String (List String))
    (height : Int) : List (List Char × List Nat) → List String
  | [] => []
  | (key, val) :: rest =>
    bucketSpecContribution unmarshalPids height key val
      ++ revealSpecTargets unmarshalPids height rest

theorem bucketContribution_eq_spec
    (unmarshalPids : List Nat → Except String (List String))
    (height : Int) (key : List Char) (val : List Nat) :
    bucketContribution unmarshalPids height key val
      = bucketSpecContribution unmarshalPids height key val := by
  unfold bucketContribution bucketSpecContribution
  cases bucketHeight key with
  | none => rfl
  | some h =>
    show (if height ≤ h + 2 then []
        else (unmarshalPids val).toOption.getD [])
      = (if h + 2 < height then (unmarshalPids val).toOption.getD [] else [])
    rcases le_or_lt height (h + 2) with hle | hlt
    · rw [if_pos hle, if_neg (by omega)]
    · rw [if_neg (by omega), if_pos hlt]

/-- Claim C7: the startup rescue pass attempts a reveal exactly for the
processes listed under scheduled bucket keys `b_<h>` with
`h + 2 < currentHeight`; buckets with `h + 2 ≥ currentHeight` are skipped
(the source's skip condition `header.Height <= h+2` is the exact
complement). -/
theorem claim_C7_revealUnpublished_buckets
    (unmarshalPids : List Nat → Except String (List String))
    (height : Int) (entries : List (List Char × List Nat)) :
    revealUnpublishedTargets unmarshalPids height entries
      = revealSpecTargets unmarshalPids height entries := by
  induction entries with
  | nil => rfl
  | cons e rest ih =>
    obtain ⟨key, val⟩ := e
    simp only [revealUnpublishedTargets, revealSpecTargets, ih,
      bucketContribution_eq_spec]

/-! ### Claim C10: Rollback empties the pending pools -/

/-- The key keeper's in-memory per-block pools (`keyPool`, `blockPool` —
Go maps, modelled as association lists; map iteration order is irrelevant
here). -/
structure KeyKeeperState where
  keyPool : List (String × processKeys)
  blockPool : List (String × Int)

/-- `KeyKeeper.Rollback`: allocate fresh empty pools, dropping every
non-committed pending operation. -/
def kkRollback (s : KeyKeeperState) : KeyKeeperState :=
  { s with keyPool := [], blockPool := [] }

/-- The process fields `OnProcess` reads (`types.Process` is not under
src/; modelled from the spec): whether the process needs keys, whether
this keeper's slots are already filled on chain, and the end height. -/
structure KKProcessView where
  requireKeys : Bool
  alreadyHasKeys : Bool
  startBlock : Int
  numberOfBlocks : Int

/-- `KeyKeeper.OnProcess`: if the process needs keys, none are published
yet and none are pooled for this block, generate keys into `keyPool` and
schedule the reveal at `startBlock + numberOfBlocks` in `blockPool`.
`stateProcess` abstracts the vochain state read and `genKeys` the
`generateKeys` call with the keeper's signer. -/
def kkOnProcess (stateProcess : String → Except String KKProcessView)
    (genKeys : String → Except String processKeys)
    (s : KeyKeeperState) (pid : String) : KeyKeeperState :=
  match stateProcess pid with
  | .error _ => s
  | .ok p =>
    if !p.requireKeys then s
    else if p.alreadyHasKeys then s
    else if (s.keyPool.lookup pid).isSome then s
    else
      match genKeys pid with
      | .error _ => s
      | .ok pk =>
        { keyPool := (pid, pk) :: s.keyPool
          blockPool := (pid, p.startBlock + p.numberOfBlocks) :: s.blockPool }

/-- The keeper's local KV storage (same shape as the reveal buckets). -/
abbrev KKStorage := List (List Char × List Nat)

/-- `KeyKeeper.scheduleRevealKeys`, effect of one `blockPool` entry:
read the existing `b_<height>` bucket (an absent or undecodable value
yields an empty list), append the pid, re-encode and store.  `marshalPids`
and `unmarshalPids` stand for the amino codec; Go prints the height with
`%d`. -/
def scheduleStep (marshalPids : List String → Except String (List Nat))
    (unmarshalPids : List Nat → Except String (List String))
    (storage : KKStorage) (pid : String) (height : Int) : KKStorage :=
  let pkey := 'b' :: '_' :: (toString height).data
  let pids : List String :=
    match storage.lookup pkey with
    | none => []
    | some data => (unmarshalPids data).toOption.getD []
  match marshalPids (pids ++ [pid]) with
  | .error _ => storage
  | .ok data2 => (pkey, data2) :: storage.filter (fun e => !(e.1 == pkey))

/-- `KeyKeeper.scheduleRevealKeys`: run `scheduleStep` for every pooled
`(pid, height)`. -/
def scheduleRevealKeys (marshalPids : List String → Except String (List Nat))
    (unmarshalPids : List Nat → Except String (List String))
    (s : KeyKeeperState) (storage : KKStorage) : KKStorage :=
  s.blockPool.foldl
    (fun st e => scheduleStep marshalPids unmarshalPids st e.1 e.2) storage

/-- `KeyKeeper.publishPendingKeys`: the `(pid, keys)` pairs submitted via
`publishKeys` on commit — exactly the pooled entries. -/
def publishPendingKeys (s : KeyKeeperState) : List (String × processKeys) :=
  s.keyPool

/-- Claim C10: after `Rollback` both pools are empty whatever they held, so
a subsequent `Commit` publishes no keys and schedules no reveals; in
particular keys generated by `OnProcess` in a block that is rolled back
rather than committed are never published and never scheduled. -/
theorem claim_C10_rollback_empties_pools (s : KeyKeeperState) :
    (kkRollback s).keyPool = [] ∧
    (kkRollback s).blockPool = [] ∧
    (∀ marshalPids unmarshalPids storage,
      scheduleRevealKeys marshalPids unmarshalPids (kkRollback s) storage
        = storage) ∧
    publishPendingKeys (kkRollback s) = [] ∧
    (∀ stateProcess genKeys pid,
      kkRollback (kkOnProcess stateProcess genKeys s pid)
        = { keyPool := [], blockPool := [] }) :=
  ⟨rfl, rfl, fun _ _ _ => rfl, rfl, fun _ _ _ => rfl⟩

end Vocdoni
